import Mathlib

/-!
Verification of the local backup coordination engine
(`src/Backups/BackupCoordinationLocal.cpp`).

The component keeps
* `file_names` : an ordered map (C++ `std::map<String, SizeAndChecksum>`)
  from every registered logical file name to its (size, checksum) key;
* `file_infos` : a map (C++ `std::map<SizeAndChecksum, FileInfo>`) holding at
  most one full `FileInfo` record per distinct (size, checksum) key;
* an archive-suffix counter together with the ordered history of issued
  suffixes;
* the replicated-part-name tracker, of which only the `preparePartNames`
  trigger is relevant here.

Strings (`std::string`) are embedded as lists of character codes: byte-wise
comparison of UTF-8 strings agrees with code-point lexicographic order, so
`std::map`-iteration order over names is the lexicographic order on these
lists.  The ordered map `file_names` is embedded as a strictly sorted
association list; `file_infos`, whose iteration order is never used by the
code, is embedded as an association list with unique keys.  Machine integers
(`UInt64` sizes, the 128-bit checksum digest) are embedded as `Nat`: the code
only compares them, never does arithmetic on them, so no overflow can occur.
All coordination methods take the mutex around their whole body, so each call
is one atomic state transition; the embedding is plain state passing.
-/

namespace BackupLocal

/-- A `std::string`, as its list of character codes. -/
abbrev Name := List Nat

/-- Embed a Lean string literal as a `Name` (code points; for the ASCII data
used by the backup coordination this is exactly the byte sequence). -/
def strName (s : String) : Name := s.data.map Char.toNat

/-- Lexicographic comparison of names, C++ `std::string operator<`. -/
def ltName : Name → Name → Bool
  | _, [] => false
  | [], _ :: _ => true
  | a :: x, b :: y => if a < b then true else if a = b then ltName x y else false

/-- The C++ test `name.starts_with(pre)`. -/
def startsWith : Name → Name → Bool
  | [], _ => true
  | _ :: _, [] => false
  | a :: p, b :: n => if a = b then startsWith p n else false

/-- First index at which the pattern `t` occurs in the haystack
(C++ `std::string::find`, restricted to a nonempty pattern; `none` is `npos`). -/
def findSub (t : Name) : Name → Option Nat
  | [] => none
  | c :: rest => if startsWith t (c :: rest) then some 0 else (findSub t rest).map (· + 1)

/-- `IBackupCoordination::SizeAndChecksum`: the (size, checksum) content key. -/
abbrev SizeAndChecksum := Nat × Nat

/-- `IBackupCoordination::FileInfo` restricted to the fields the coordination
code reads or writes: logical name, size, checksum, bytes covered by the base
backup, and the archive suffix assigned later. -/
structure FileInfo where
  file_name : Name
  size : Nat
  checksum : Nat
  base_size : Nat
  archive_suffix : Name
  deriving DecidableEq, Repr

/-- Modelled from the spec: a default-constructed `FileInfo` (the struct
definition lives in the header `IBackupCoordination.h`, which is not under
`src/`): all numeric fields are zero and all strings empty. -/
def FileInfo.default : FileInfo :=
  { file_name := [], size := 0, checksum := 0, base_size := 0, archive_suffix := [] }

/-- Lookup in the content index (`std::map<SizeAndChecksum, FileInfo>::find`). -/
def lookupInfo (k : SizeAndChecksum) : List (SizeAndChecksum × FileInfo) → Option FileInfo
  | [] => none
  | (k', v) :: rest => if k' = k then some v else lookupInfo k rest

/-- The `try_emplace` of the content index: insert only when the key is absent,
returning whether insertion happened (`.second` in C++). -/
def tryEmplaceInfo (k : SizeAndChecksum) (v : FileInfo)
    (m : List (SizeAndChecksum × FileInfo)) : Bool × List (SizeAndChecksum × FileInfo) :=
  match lookupInfo k m with
  | some _ => (false, m)
  | none => (true, m ++ [(k, v)])

/-- In-place update `file_infos.at(k).archive_suffix = suf` (the key is known
to be present when this is reached). -/
def setSuffixInfo (k : SizeAndChecksum) (suf : Name) :
    List (SizeAndChecksum × FileInfo) → List (SizeAndChecksum × FileInfo)
  | [] => []
  | (k', v) :: rest =>
    if k' = k then (k', { v with archive_suffix := suf }) :: rest
    else (k', v) :: setSuffixInfo k suf rest

/-- Lookup in the name index (`std::map<String, SizeAndChecksum>::find`). -/
def mapFind (k : Name) : List (Name × SizeAndChecksum) → Option SizeAndChecksum
  | [] => none
  | (k', v) :: rest => if k' = k then some v else mapFind k rest

/-- The `emplace` of the name index: sorted insertion that does NOT overwrite
an existing binding of the same name. -/
def mapInsert (k : Name) (v : SizeAndChecksum) :
    List (Name × SizeAndChecksum) → List (Name × SizeAndChecksum)
  | [] => [(k, v)]
  | (k', v') :: rest =>
    if ltName k k' then (k, v) :: (k', v') :: rest
    else if k = k' then (k', v') :: rest
    else (k', v') :: mapInsert k v rest

/-- Decimal digits of a number, most significant first. -/
def decimalDigits (n : Nat) : List Nat :=
  if n = 0 then [0] else (Nat.digits 10 n).reverse

/-- Zero-pad a digit list on the left to width `w`. -/
def padZeros (w : Nat) (l : List Nat) : List Nat :=
  List.replicate (w - l.length) 0 ++ l

/-- The formatting `fmt::format("{:03}", n)`: decimal, zero-padded to at least
three characters, growing wider past 999. -/
def formatSuffix (n : Nat) : Name :=
  (padZeros 3 (decimalDigits n)).map (fun d => 48 + d)

/-- Numeric value of a decimal suffix string (inverse of `formatSuffix`; used
only in statements about the suffix sequence). -/
def parseSuffix (s : Name) : Nat :=
  s.foldl (fun acc c => acc * 10 + (c - 48)) 0

/-- The mutable state of `BackupCoordinationLocal`.  The replicated-part-name
tracker is abstracted to the one piece of it this file reasons about: how many
times its `preparePartNames` finalization has been triggered. -/
structure LocalState where
  file_names : List (Name × SizeAndChecksum)
  file_infos : List (SizeAndChecksum × FileInfo)
  current_archive_suffix : Nat
  archive_suffixes : List Name
  prepare_part_names_calls : Nat
  deriving DecidableEq, Repr

/-- Modelled from the spec: the freshly constructed coordination state (member
initializers live in `BackupCoordinationLocal.h`, not under `src/`): empty
registries and the suffix counter at zero, so the first issued suffix is
"001". -/
def initialState : LocalState :=
  { file_names := [], file_infos := [], current_archive_suffix := 0,
    archive_suffixes := [], prepare_part_names_calls := 0 }

/-- `BackupCoordinationLocal::addFileInfo`: register the name in the name
index (never overwriting an existing binding), and, for nonzero size, try to
register the record in the content index; the returned flag
`is_data_file_required` is true iff the record was inserted now and
`size > base_size`. -/
def addFileInfo (fi : FileInfo) (st : LocalState) : Bool × LocalState :=
  let names := mapInsert fi.file_name (fi.size, fi.checksum) st.file_names
  if fi.size = 0 then
    (false, { st with file_names := names })
  else
    let r := tryEmplaceInfo (fi.size, fi.checksum) fi st.file_infos
    (r.1 && decide (fi.base_size < fi.size), { st with file_names := names, file_infos := r.2 })

/-- `BackupCoordinationLocal::updateFileInfo`: no-op for empty files;
otherwise set the archive suffix of the stored record.  `file_infos.at` throws
when the key is absent — that exception is the `none` result, and since it is
raised before any mutation the registry is unchanged in that case. -/
def updateFileInfo (fi : FileInfo) (st : LocalState) : Option LocalState :=
  if fi.size = 0 then some st
  else
    match lookupInfo (fi.size, fi.checksum) st.file_infos with
    | none => none
    | some _ =>
      some { st with file_infos := setSuffixInfo (fi.size, fi.checksum) fi.archive_suffix st.file_infos }

/-- The body of the `getAllFileInfos` loop for one name-index entry: a
default-constructed record for empty files, otherwise the stored record; in
both cases the entry's own name is written into the result.  The `none` case
is the (unreachable) `file_infos.at` exception. -/
def fileInfoForEntry (infos : List (SizeAndChecksum × FileInfo))
    (e : Name × SizeAndChecksum) : Option FileInfo :=
  if e.2.1 = 0 then some { FileInfo.default with file_name := e.1 }
  else (lookupInfo e.2 infos).map (fun info => { info with file_name := e.1 })

/-- The `getAllFileInfos` iteration over the name index. -/
def collectInfos (infos : List (SizeAndChecksum × FileInfo)) :
    List (Name × SizeAndChecksum) → Option (List FileInfo)
  | [] => some []
  | e :: rest =>
    match fileInfoForEntry infos e, collectInfos infos rest with
    | some i, some is => some (i :: is)
    | _, _ => none

/-- `BackupCoordinationLocal::getAllFileInfos`: one record per registered
name, in map (lexicographic) order of the names. -/
def getAllFileInfos (st : LocalState) : Option (List FileInfo) :=
  collectInfos st.file_infos st.file_names

/-- The substring a matching name contributes to `listFiles`: everything after
the prefix, cut at the first occurrence of the terminator when there is one
(`substr(start_pos, end_pos - start_pos)` with `end_pos = npos` when the
terminator is empty or absent). -/
def segmentOf (pre term nm : Name) : Name :=
  let rest := nm.drop pre.length
  match term with
  | [] => rest
  | _ :: _ =>
    match findSub term rest with
    | none => rest
    | some i => rest.take i

/-- The `listFiles` loop: walk the (already positioned) name-index entries,
stop at the first name that does not start with the prefix, and push each
segment unless it equals the last pushed element. -/
def listFilesGo (pre term : Name) :
    List (Name × SizeAndChecksum) → List Name → List Name
  | [], acc => acc
  | (nm, _) :: rest, acc =>
    if startsWith pre nm then
      let e := segmentOf pre term nm
      if acc.getLast? = some e then listFilesGo pre term rest acc
      else listFilesGo pre term rest (acc ++ [e])
    else acc

/-- `BackupCoordinationLocal::listFiles`: start iteration at
`file_names.lower_bound(prefix)` — on a sorted association list, after
dropping the entries whose name is `< prefix`. -/
def listFiles (st : LocalState) (pre term : Name) : List Name :=
  listFilesGo pre term (st.file_names.dropWhile (fun e => ltName e.1 pre)) []

/-- Consecutive-duplicate collapse, carrying the last kept element. -/
def dedupConsecGo (last : Option Name) : List Name → List Name
  | [] => []
  | x :: xs => if last = some x then dedupConsecGo last xs else x :: dedupConsecGo (some x) xs

/-- Modelled from the spec's words, for comparison with `listFiles`:
"lexicographically scans all registered names beginning with `prefix`, and for
each match extracts the substring between `prefix` and the first occurrence of
`terminator` (or to end-of-name if terminator is empty or absent); returns the
distinct, order-preserving sequence of such segments (consecutive duplicates
collapsed)". -/
def listFilesSpec (st : LocalState) (pre term : Name) : List Name :=
  dedupConsecGo none
    ((st.file_names.filter (fun e => startsWith pre e.1)).map (fun e => segmentOf pre term e.1))

/-- `BackupCoordinationLocal::getFileInfo(const String &)`: `none` of the
outer option is the (unreachable) `file_infos.at` exception; the inner option
is the function's own `std::optional` result. -/
def getFileInfoByName (nm : Name) (st : LocalState) : Option (Option FileInfo) :=
  match mapFind nm st.file_names with
  | none => some none
  | some sc =>
    if sc.1 = 0 then some (some { FileInfo.default with file_name := nm })
    else (lookupInfo sc st.file_infos).map (fun i => some { i with file_name := nm })

/-- `BackupCoordinationLocal::getFileInfo(const SizeAndChecksum &)`. -/
def getFileInfoByKey (sc : SizeAndChecksum) (st : LocalState) : Option FileInfo :=
  lookupInfo sc st.file_infos

/-- `BackupCoordinationLocal::getFileSizeAndChecksum`. -/
def getFileSizeAndChecksum (nm : Name) (st : LocalState) : Option SizeAndChecksum :=
  mapFind nm st.file_names

/-- `BackupCoordinationLocal::getNextArchiveSuffix`: pre-increment the
counter, format it, append to the issued history and return it. -/
def getNextArchiveSuffix (st : LocalState) : Name × LocalState :=
  let c := st.current_archive_suffix + 1
  let s := formatSuffix c
  (s, { st with current_archive_suffix := c, archive_suffixes := st.archive_suffixes ++ [s] })

/-- `BackupCoordinationLocal::getAllArchiveSuffixes`. -/
def getAllArchiveSuffixes (st : LocalState) : List Name :=
  st.archive_suffixes

/-- `BackupCoordinationLocal::finishPreparing`: on a nonempty error message
only log and return (the part tracker is left untouched); on success trigger
the tracker's `preparePartNames` finalization.  The tracker's own
finalization body (`BackupCoordinationReplicatedPartNames`) is not under
`src/` and is modelled from the spec as the abstract trigger counter. -/
def finishPreparing (error_message : Name) (st : LocalState) : LocalState :=
  if error_message = [] then
    { st with prepare_part_names_calls := st.prepare_part_names_calls + 1 }
  else st

/-- Repeated `getNextArchiveSuffix`, discarding the returned strings (they are
recorded in `archive_suffixes` anyway). -/
def iterSuffix : Nat → LocalState → LocalState
  | 0, st => st
  | n + 1, st => (getNextArchiveSuffix (iterSuffix n st)).2

/-- The states reachable from the fresh coordination state by the mutating
interface calls. -/
inductive Reachable : LocalState → Prop
  | init : Reachable initialState
  | add (fi : FileInfo) (st : LocalState) : Reachable st → Reachable (addFileInfo fi st).2
  | update (fi : FileInfo) (st st' : LocalState) :
      Reachable st → updateFileInfo fi st = some st' → Reachable st'
  | next (st : LocalState) : Reachable st → Reachable (getNextArchiveSuffix st).2
  | finish (e : Name) (st : LocalState) : Reachable st → Reachable (finishPreparing e st)

/-- Strict sortedness of the name index (the `std::map` key order). -/
abbrev SortedNames (l : List (Name × SizeAndChecksum)) : Prop :=
  l.Pairwise (fun a b => ltName a.1 b.1 = true)

/-- The structural invariants of a coordination state: the name index is
strictly sorted, the content index has pairwise distinct keys, no content key
has size zero, and every name of nonzero size has its key in the content
index. -/
structure WF (st : LocalState) : Prop where
  sorted : SortedNames st.file_names
  keysNodup : (st.file_infos.map Prod.fst).Nodup
  noZero : ∀ e ∈ st.file_infos, e.1.1 ≠ 0
  coverage : ∀ e ∈ st.file_names, e.2.1 ≠ 0 → (lookupInfo e.2 st.file_infos).isSome = true

/-! ### Concrete data for witnesses -/

/-- A zero-size file record (checksum field deliberately nonzero to show it is
ignored for empty files). -/
def fiZero : FileInfo :=
  { file_name := strName "meta/empty.txt", size := 0, checksum := 7,
    base_size := 0, archive_suffix := [] }

/-- A nonzero file record, partially covered by the base backup. -/
def fiA : FileInfo :=
  { file_name := strName "data/a.bin", size := 4, checksum := 5,
    base_size := 1, archive_suffix := [] }

/-- A second name carrying the same content key as `fiA`. -/
def fiB : FileInfo :=
  { file_name := strName "data/b.bin", size := 4, checksum := 5,
    base_size := 0, archive_suffix := [] }

/-- The update request that attaches archive suffix "001" to `fiA`'s key. -/
def fiU : FileInfo :=
  { file_name := [], size := 4, checksum := 5, base_size := 0,
    archive_suffix := strName "001" }

/-- A record re-using `fiA`'s file name with a different content key. -/
def fiA2 : FileInfo :=
  { file_name := strName "data/a.bin", size := 9, checksum := 77,
    base_size := 0, archive_suffix := [] }

/-- State after registering `fiA`. -/
def stA : LocalState := (addFileInfo fiA initialState).2

/-- State after registering the zero-size file. -/
def stZ : LocalState := (addFileInfo fiZero initialState).2

/-- State after also registering `fiB` (same content key as `fiA`). -/
def stAB : LocalState := (addFileInfo fiB stA).2

/-- State with the registered names "a/b/c", "a/b/d", "a/e" of the spec's
`listFiles` example. -/
def stList : LocalState :=
  (addFileInfo { file_name := strName "a/e", size := 3, checksum := 7,
                 base_size := 0, archive_suffix := [] }
    ((addFileInfo { file_name := strName "a/b/d", size := 2, checksum := 6,
                    base_size := 0, archive_suffix := [] }
      ((addFileInfo { file_name := strName "a/b/c", size := 1, checksum := 5,
                      base_size := 0, archive_suffix := [] }
        initialState).2)).2)).2

/-! ### Order lemmas for names -/

theorem ltName_nil_right (x : Name) : ltName x [] = false := by
  cases x <;> rfl

theorem ltName_nil_iff (y : Name) : ltName [] y = true ↔ y ≠ [] := by
  cases y <;> simp [ltName]

theorem ltName_cons_iff (a b : Nat) (x y : Name) :
    ltName (a :: x) (b :: y) = true ↔ a < b ∨ (a = b ∧ ltName x y = true) := by
  by_cases h1 : a < b
  · simp [ltName, h1]
  · by_cases h2 : a = b
    · simp [ltName, h1, h2]
    · simp [ltName, h1, h2]

theorem ltName_irrefl (x : Name) : ltName x x = false := by
  induction x with
  | nil => rfl
  | cons a x ih =>
    cases h : ltName (a :: x) (a :: x)
    · rfl
    · rw [ltName_cons_iff] at h
      rcases h with h | ⟨_, h⟩
      · omega
      · rw [ih] at h; cases h

theorem ltName_trans : ∀ x y z : Name,
    ltName x y = true → ltName y z = true → ltName x z = true := by
  intro x
  induction x with
  | nil =>
    intro y z _ hyz
    cases z with
    | nil => rw [ltName_nil_right] at hyz; exact absurd hyz (by simp)
    | cons c z' => rfl
  | cons a x ih =>
    intro y z hxy hyz
    cases y with
    | nil => rw [ltName_nil_right] at hxy; exact absurd hxy (by simp)
    | cons b y' =>
      cases z with
      | nil => rw [ltName_nil_right] at hyz; exact absurd hyz (by simp)
      | cons c z' =>
        rw [ltName_cons_iff] at hxy hyz ⊢
        rcases hxy with h1 | ⟨h1, h1'⟩
        · rcases hyz with h2 | ⟨h2, _⟩
          · exact Or.inl (Nat.lt_trans h1 h2)
          · exact Or.inl (h2 ▸ h1)
        · rcases hyz with h2 | ⟨h2, h2'⟩
          · exact Or.inl (h1 ▸ h2)
          · exact Or.inr ⟨h1.trans h2, ih y' z' h1' h2'⟩

theorem ltName_asymm {x y : Name} (h : ltName x y = true) : ltName y x = false := by
  by_contra hc
  have hyx : ltName y x = true := by
    cases hxy : ltName y x
    · exact absurd hxy hc
    · rfl
  have := ltName_trans x y x h hyx
  rw [ltName_irrefl] at this
  exact absurd this (by simp)

theorem ltName_total {x y : Name} (h1 : ltName x y = false) (h2 : ltName y x = false) :
    x = y := by
  induction x generalizing y with
  | nil =>
    cases y with
    | nil => rfl
    | cons b y' => simp [ltName] at h1
  | cons a x ih =>
    cases y with
    | nil => simp [ltName] at h2
    | cons b y' =>
      have ha : ¬ (a < b ∨ (a = b ∧ ltName x y' = true)) := by
        rw [← ltName_cons_iff]; simp [h1]
      have hb : ¬ (b < a ∨ (b = a ∧ ltName y' x = true)) := by
        rw [← ltName_cons_iff]; simp [h2]
      push_neg at ha hb
      have hab : a = b := by omega
      have hx : ltName x y' = false := by
        cases hxy : ltName x y'
        · rfl
        · exact absurd hxy (by simpa using ha.2 hab)
      have hy : ltName y' x = false := by
        cases hxy : ltName y' x
        · rfl
        · exact absurd hxy (by simpa using hb.2 hab.symm)
      rw [hab, ih hx hy]

theorem ltName_false_of_startsWith :
    ∀ p x : Name, startsWith p x = true → ltName x p = false := by
  intro p
  induction p with
  | nil => intro x _; exact ltName_nil_right x
  | cons a p' ih =>
    intro x hx
    cases x with
    | nil => simp [startsWith] at hx
    | cons b x' =>
      by_cases hab : a = b
      · subst hab
        simp only [startsWith, if_pos rfl] at hx
        have := ih x' hx
        cases hlt : ltName (a :: x') (a :: p')
        · rfl
        · rw [ltName_cons_iff] at hlt
          rcases hlt with h | ⟨_, h⟩
          · omega
          · rw [this] at h; cases h
      · simp [startsWith, hab] at hx

theorem ltName_of_startsWith_gap :
    ∀ p x y : Name, ltName x p = false → startsWith p x = false →
      startsWith p y = true → ltName y x = true := by
  intro p
  induction p with
  | nil => intro x y _ hsx _; simp [startsWith] at hsx
  | cons a p' ih =>
    intro x y hlt hsx hsy
    cases y with
    | nil => simp [startsWith] at hsy
    | cons b y' =>
      have hab : a = b := by
        by_cases h : a = b
        · exact h
        · simp [startsWith, h] at hsy
      subst hab
      simp only [startsWith, if_pos rfl] at hsy
      cases x with
      | nil => simp [ltName] at hlt
      | cons c x' =>
        rcases Nat.lt_trichotomy a c with hac | hac | hac
        · rw [ltName_cons_iff]; exact Or.inl hac
        · subst hac
          have hsx' : startsWith p' x' = false := by
            simpa [startsWith] using hsx
          have hlt' : ltName x' p' = false := by
            cases h : ltName x' p'
            · rfl
            · have : ltName (a :: x') (a :: p') = true := by
                rw [ltName_cons_iff]; exact Or.inr ⟨rfl, h⟩
              rw [this] at hlt; cases hlt
          rw [ltName_cons_iff]
          exact Or.inr ⟨rfl, ih x' y' hlt' hsx' hsy⟩
        · exfalso
          have : ltName (c :: x') (a :: p') = true := by
            rw [ltName_cons_iff]; exact Or.inl hac
          rw [this] at hlt; cases hlt

/-! ### Association-list lemmas -/

theorem lookupInfo_eq_none_iff (k : SizeAndChecksum) (m : List (SizeAndChecksum × FileInfo)) :
    lookupInfo k m = none ↔ ∀ e ∈ m, e.1 ≠ k := by
  induction m with
  | nil => simp [lookupInfo]
  | cons e rest ih =>
    obtain ⟨k', v⟩ := e
    by_cases h : k' = k
    · simp [lookupInfo, h]
    · simp [lookupInfo, h, ih]

theorem lookupInfo_mem {k : SizeAndChecksum} {v : FileInfo}
    {m : List (SizeAndChecksum × FileInfo)} (h : lookupInfo k m = some v) : (k, v) ∈ m := by
  induction m with
  | nil => simp [lookupInfo] at h
  | cons e rest ih =>
    obtain ⟨k', v'⟩ := e
    by_cases hk : k' = k
    · subst hk
      have hv : v' = v := by simpa [lookupInfo] using h
      subst hv
      exact List.mem_cons_self _ _
    · simp only [lookupInfo, if_neg hk] at h
      exact List.mem_cons_of_mem _ (ih h)

theorem lookupInfo_append_of_isSome {k : SizeAndChecksum}
    {m : List (SizeAndChecksum × FileInfo)} (l : List (SizeAndChecksum × FileInfo))
    (h : (lookupInfo k m).isSome = true) : lookupInfo k (m ++ l) = lookupInfo k m := by
  induction m with
  | nil => simp [lookupInfo] at h
  | cons e rest ih =>
    obtain ⟨k', v'⟩ := e
    by_cases hk : k' = k
    · simp [lookupInfo, hk]
    · simp only [lookupInfo, if_neg hk] at h ⊢
      exact ih h

theorem lookupInfo_append_self {k : SizeAndChecksum} (v : FileInfo)
    {m : List (SizeAndChecksum × FileInfo)} (h : lookupInfo k m = none) :
    lookupInfo k (m ++ [(k, v)]) = some v := by
  induction m with
  | nil => simp [lookupInfo]
  | cons e rest ih =>
    obtain ⟨k', v'⟩ := e
    by_cases hk : k' = k
    · simp [lookupInfo, hk] at h
    · simp only [lookupInfo, if_neg hk] at h ⊢
      exact ih h

theorem setSuffixInfo_keys (k : SizeAndChecksum) (suf : Name)
    (m : List (SizeAndChecksum × FileInfo)) :
    (setSuffixInfo k suf m).map Prod.fst = m.map Prod.fst := by
  induction m with
  | nil => rfl
  | cons e rest ih =>
    obtain ⟨k', v⟩ := e
    by_cases hk : k' = k
    · simp [setSuffixInfo, hk]
    · simp [setSuffixInfo, hk, ih]

theorem lookupInfo_setSuffix_self (k : SizeAndChecksum) (suf : Name)
    (m : List (SizeAndChecksum × FileInfo)) :
    lookupInfo k (setSuffixInfo k suf m) =
      (lookupInfo k m).map (fun v => { v with archive_suffix := suf }) := by
  induction m with
  | nil => rfl
  | cons e rest ih =>
    obtain ⟨k', v⟩ := e
    by_cases hk : k' = k
    · simp [setSuffixInfo, lookupInfo, hk]
    · simp [setSuffixInfo, lookupInfo, hk, ih]

theorem lookupInfo_isSome_iff (k : SizeAndChecksum)
    (m : List (SizeAndChecksum × FileInfo)) :
    (lookupInfo k m).isSome = true ↔ k ∈ m.map Prod.fst := by
  induction m with
  | nil => simp [lookupInfo]
  | cons e rest ih =>
    obtain ⟨k', v⟩ := e
    by_cases hk : k' = k
    · simp [lookupInfo, hk]
    · rw [lookupInfo, if_neg hk, List.map_cons]
      rw [ih]
      constructor
      · intro h
        exact List.mem_cons.mpr (Or.inr h)
      · intro h
        rcases List.mem_cons.mp h with h | h
        · exact absurd h.symm hk
        · exact h

theorem lookupInfo_setSuffix_isSome (k k0 : SizeAndChecksum) (suf : Name)
    (m : List (SizeAndChecksum × FileInfo)) :
    (lookupInfo k (setSuffixInfo k0 suf m)).isSome = (lookupInfo k m).isSome := by
  have h1 := lookupInfo_isSome_iff k (setSuffixInfo k0 suf m)
  have h2 := lookupInfo_isSome_iff k m
  rw [setSuffixInfo_keys] at h1
  cases hb : (lookupInfo k m).isSome
  · cases hb2 : (lookupInfo k (setSuffixInfo k0 suf m)).isSome
    · rfl
    · exact absurd (h2.mpr (h1.mp hb2)) (by simp [hb])
  · exact h1.mpr (h2.mp hb)

theorem mapFind_mem {k : Name} {v : SizeAndChecksum}
    {m : List (Name × SizeAndChecksum)} (h : mapFind k m = some v) : (k, v) ∈ m := by
  induction m with
  | nil => simp [mapFind] at h
  | cons e rest ih =>
    obtain ⟨k', v'⟩ := e
    by_cases hk : k' = k
    · subst hk
      have hv : v' = v := by simpa [mapFind] using h
      subst hv
      exact List.mem_cons_self _ _
    · simp only [mapFind, if_neg hk] at h
      exact List.mem_cons_of_mem _ (ih h)

theorem mapFind_of_mem {k : Name} {v : SizeAndChecksum}
    {m : List (Name × SizeAndChecksum)} (hs : SortedNames m) (h : (k, v) ∈ m) :
    mapFind k m = some v := by
  induction m with
  | nil => simp at h
  | cons e rest ih =>
    obtain ⟨k', v'⟩ := e
    rcases List.mem_cons.mp h with he | he
    · rw [Prod.mk.injEq] at he
      simp [mapFind, he.1, he.2]
    · have hlt : ltName k' k = true := by
        have := (List.pairwise_cons.mp hs).1 (k, v) he
        exact this
      have hne : k' ≠ k := by
        intro hc
        rw [hc, ltName_irrefl] at hlt
        cases hlt
      simp only [mapFind, if_neg hne]
      exact ih (List.pairwise_cons.mp hs).2 he

theorem mapInsert_mem_or {k : Name} {v : SizeAndChecksum} {e : Name × SizeAndChecksum} :
    ∀ {m : List (Name × SizeAndChecksum)},
      e ∈ mapInsert k v m → e = (k, v) ∨ e ∈ m := by
  intro m
  induction m with
  | nil => simp [mapInsert]
  | cons e' rest ih =>
    obtain ⟨k', v'⟩ := e'
    intro h
    by_cases h1 : ltName k k' = true
    · simp only [mapInsert, if_pos h1] at h
      rcases List.mem_cons.mp h with h | h
      · exact Or.inl h
      · exact Or.inr h
    · by_cases h2 : k = k'
      · simp only [mapInsert, if_neg h1, if_pos h2] at h
        exact Or.inr h
      · simp only [mapInsert, if_neg h1, if_neg h2] at h
        rcases List.mem_cons.mp h with h | h
        · exact Or.inr (List.mem_cons.mpr (Or.inl h))
        · rcases ih h with h | h
          · exact Or.inl h
          · exact Or.inr (List.mem_cons.mpr (Or.inr h))

theorem mapInsert_sorted {k : Name} {v : SizeAndChecksum}
    {m : List (Name × SizeAndChecksum)} (hs : SortedNames m) :
    SortedNames (mapInsert k v m) := by
  induction m with
  | nil => simp [mapInsert, SortedNames]
  | cons e rest ih =>
    obtain ⟨k', v'⟩ := e
    obtain ⟨hhead, htail⟩ := List.pairwise_cons.mp hs
    by_cases h1 : ltName k k' = true
    · simp only [mapInsert, if_pos h1]
      refine List.pairwise_cons.mpr ⟨?_, hs⟩
      intro e he
      rcases List.mem_cons.mp he with he | he
      · rw [he]; exact h1
      · exact ltName_trans _ _ _ h1 (hhead e he)
    · by_cases h2 : k = k'
      · subst h2
        rw [mapInsert, if_neg h1, if_pos rfl]
        exact hs
      · simp only [mapInsert, if_neg h1, if_neg h2]
        refine List.pairwise_cons.mpr ⟨?_, ih htail⟩
        intro e he
        rcases mapInsert_mem_or he with he | he
        · rw [he]
          cases h3 : ltName k' k
          · exact absurd (ltName_total (by simpa using h1) h3) h2
          · rfl
        · exact hhead e he

theorem mapInsert_of_mem_key {k : Name} (v v0 : SizeAndChecksum)
    {m : List (Name × SizeAndChecksum)} (hs : SortedNames m) (h : (k, v0) ∈ m) :
    mapInsert k v m = m := by
  induction m with
  | nil => simp at h
  | cons e rest ih =>
    obtain ⟨k', v'⟩ := e
    obtain ⟨hhead, htail⟩ := List.pairwise_cons.mp hs
    rcases List.mem_cons.mp h with he | he
    · rw [Prod.mk.injEq] at he
      simp [mapInsert, he.1.symm, ltName_irrefl]
    · have hlt : ltName k' k = true := hhead _ he
      have hne : k ≠ k' := by
        intro hc
        rw [hc, ltName_irrefl] at hlt
        cases hlt
      rw [mapInsert, if_neg (by simp [ltName_asymm hlt]), if_neg hne, ih htail he]

theorem mapFind_mapInsert_isSome (k : Name) (v : SizeAndChecksum)
    (m : List (Name × SizeAndChecksum)) :
    (mapFind k (mapInsert k v m)).isSome = true := by
  induction m with
  | nil => simp [mapInsert, mapFind]
  | cons e rest ih =>
    obtain ⟨k', v'⟩ := e
    by_cases h1 : ltName k k' = true
    · simp [mapInsert, h1, mapFind]
    · by_cases h2 : k = k'
      · subst h2
        rw [mapInsert, if_neg h1, if_pos rfl]
        simp [mapFind]
      · have hne : k' ≠ k := fun hc => h2 hc.symm
        rw [mapInsert, if_neg h1, if_neg h2, mapFind, if_neg hne]
        exact ih

theorem mapFind_mapInsert_other (k k0 : Name) (v : SizeAndChecksum)
    (m : List (Name × SizeAndChecksum)) (h : k0 ≠ k) :
    mapFind k0 (mapInsert k v m) = mapFind k0 m := by
  have hne : k ≠ k0 := fun hc => h hc.symm
  induction m with
  | nil => simp [mapInsert, mapFind, hne]
  | cons e rest ih =>
    obtain ⟨k', v'⟩ := e
    by_cases h1 : ltName k k' = true
    · rw [mapInsert, if_pos h1, mapFind, if_neg hne]
    · by_cases h2 : k = k'
      · rw [mapInsert, if_neg h1, if_pos h2]
      · rw [mapInsert, if_neg h1, if_neg h2, mapFind, mapFind]
        by_cases h3 : k' = k0
        · rw [if_pos h3, if_pos h3]
        · rw [if_neg h3, if_neg h3]
          exact ih

/-! ### Characterization of the mutating calls -/

theorem addFileInfo_names (fi : FileInfo) (st : LocalState) :
    (addFileInfo fi st).2.file_names =
      mapInsert fi.file_name (fi.size, fi.checksum) st.file_names := by
  by_cases h : fi.size = 0 <;> simp [addFileInfo, h]

theorem addFileInfo_zero (fi : FileInfo) (st : LocalState) (h : fi.size = 0) :
    (addFileInfo fi st).1 = false ∧ (addFileInfo fi st).2.file_infos = st.file_infos := by
  simp [addFileInfo, h]

theorem addFileInfo_lookup_some (fi : FileInfo) (st : LocalState) (r : FileInfo)
    (h0 : fi.size ≠ 0) (h : lookupInfo (fi.size, fi.checksum) st.file_infos = some r) :
    (addFileInfo fi st).1 = false ∧ (addFileInfo fi st).2.file_infos = st.file_infos := by
  simp [addFileInfo, h0, tryEmplaceInfo, h]

theorem addFileInfo_lookup_none (fi : FileInfo) (st : LocalState)
    (h0 : fi.size ≠ 0) (h : lookupInfo (fi.size, fi.checksum) st.file_infos = none) :
    (addFileInfo fi st).1 = decide (fi.base_size < fi.size) ∧
      (addFileInfo fi st).2.file_infos = st.file_infos ++ [((fi.size, fi.checksum), fi)] := by
  simp [addFileInfo, h0, tryEmplaceInfo, h]

theorem addFileInfo_other_fields (fi : FileInfo) (st : LocalState) :
    (addFileInfo fi st).2.current_archive_suffix = st.current_archive_suffix ∧
      (addFileInfo fi st).2.archive_suffixes = st.archive_suffixes ∧
      (addFileInfo fi st).2.prepare_part_names_calls = st.prepare_part_names_calls := by
  by_cases h : fi.size = 0 <;> simp [addFileInfo, h]

theorem updateFileInfo_zero (fi : FileInfo) (st : LocalState) (h : fi.size = 0) :
    updateFileInfo fi st = some st := by
  simp [updateFileInfo, h]

theorem updateFileInfo_absent (fi : FileInfo) (st : LocalState) (h0 : fi.size ≠ 0)
    (h : lookupInfo (fi.size, fi.checksum) st.file_infos = none) :
    updateFileInfo fi st = none := by
  simp [updateFileInfo, h0, h]

theorem updateFileInfo_present (fi : FileInfo) (st : LocalState) (r : FileInfo)
    (h0 : fi.size ≠ 0) (h : lookupInfo (fi.size, fi.checksum) st.file_infos = some r) :
    updateFileInfo fi st =
      some { st with file_infos :=
        setSuffixInfo (fi.size, fi.checksum) fi.archive_suffix st.file_infos } := by
  simp [updateFileInfo, h0, h]

/-! ### The structural invariants hold in every reachable state -/

theorem wf_initial : WF initialState := by
  refine ⟨?_, ?_, ?_, ?_⟩ <;> simp [initialState, SortedNames]

theorem wf_addFileInfo (fi : FileInfo) (st : LocalState) (h : WF st) :
    WF (addFileInfo fi st).2 := by
  have hnames := addFileInfo_names fi st
  have hsorted : SortedNames (addFileInfo fi st).2.file_names := by
    rw [hnames]; exact mapInsert_sorted h.sorted
  by_cases h0 : fi.size = 0
  · have hinfos := (addFileInfo_zero fi st h0).2
    refine ⟨hsorted, ?_, ?_, ?_⟩
    · rw [hinfos]; exact h.keysNodup
    · rw [hinfos]; exact h.noZero
    · rw [hnames, hinfos]
      intro e he hz
      rcases mapInsert_mem_or he with he | he
      · rw [he] at hz
        simp only at hz
        exact absurd h0 hz
      · exact h.coverage e he hz
  · cases hl : lookupInfo (fi.size, fi.checksum) st.file_infos with
    | some r =>
      have hinfos := (addFileInfo_lookup_some fi st r h0 hl).2
      refine ⟨hsorted, ?_, ?_, ?_⟩
      · rw [hinfos]; exact h.keysNodup
      · rw [hinfos]; exact h.noZero
      · rw [hnames, hinfos]
        intro e he hz
        rcases mapInsert_mem_or he with he | he
        · rw [he]; simp [hl]
        · exact h.coverage e he hz
    | none =>
      have hinfos := (addFileInfo_lookup_none fi st h0 hl).2
      have hnotmem : (fi.size, fi.checksum) ∉ st.file_infos.map Prod.fst := by
        intro hc
        have := (lookupInfo_isSome_iff (fi.size, fi.checksum) st.file_infos).mpr hc
        rw [hl] at this
        cases this
      refine ⟨hsorted, ?_, ?_, ?_⟩
      · rw [hinfos, List.map_append]
        rw [List.nodup_append]
        refine ⟨h.keysNodup, by simp, ?_⟩
        intro a ha hb
        simp only [List.map_cons, List.map_nil, List.mem_singleton] at hb
        rw [hb] at ha
        exact hnotmem ha
      · rw [hinfos]
        intro e he
        rcases List.mem_append.mp he with he | he
        · exact h.noZero e he
        · rw [List.mem_singleton] at he
          rw [he]
          simpa using h0
      · rw [hnames, hinfos]
        intro e he hz
        rcases mapInsert_mem_or he with he | he
        · rw [he]
          rw [lookupInfo_append_self fi hl]
          rfl
        · rw [lookupInfo_append_of_isSome _ (h.coverage e he hz)]
          exact h.coverage e he hz

theorem wf_updateFileInfo (fi : FileInfo) (st st' : LocalState) (h : WF st)
    (hu : updateFileInfo fi st = some st') : WF st' := by
  by_cases h0 : fi.size = 0
  · rw [updateFileInfo_zero fi st h0] at hu
    cases hu
    exact h
  · cases hl : lookupInfo (fi.size, fi.checksum) st.file_infos with
    | none => rw [updateFileInfo_absent fi st h0 hl] at hu; cases hu
    | some r =>
      rw [updateFileInfo_present fi st r h0 hl] at hu
      cases hu
      refine ⟨h.sorted, ?_, ?_, ?_⟩
      · simpa [setSuffixInfo_keys] using h.keysNodup
      · intro e he
        have : e.1 ∈ (setSuffixInfo (fi.size, fi.checksum) fi.archive_suffix st.file_infos).map Prod.fst :=
          List.mem_map_of_mem Prod.fst he
        rw [setSuffixInfo_keys] at this
        rcases List.mem_map.mp this with ⟨e0, he0, heq⟩
        rw [← heq]
        exact h.noZero e0 he0
      · intro e he hz
        simp only
        rw [lookupInfo_setSuffix_isSome]
        exact h.coverage e he hz

theorem wf_next (st : LocalState) (h : WF st) : WF (getNextArchiveSuffix st).2 :=
  ⟨h.sorted, h.keysNodup, h.noZero, h.coverage⟩

theorem wf_finish (e : Name) (st : LocalState) (h : WF st) : WF (finishPreparing e st) := by
  by_cases he : e = []
  · simp only [finishPreparing, if_pos he]
    exact ⟨h.sorted, h.keysNodup, h.noZero, h.coverage⟩
  · simp only [finishPreparing, if_neg he]
    exact h

theorem reachable_wf {st : LocalState} (h : Reachable st) : WF st := by
  induction h with
  | init => exact wf_initial
  | add fi st _ ih => exact wf_addFileInfo fi st ih
  | update fi st st' _ hu ih => exact wf_updateFileInfo fi st st' ih hu
  | next st _ ih => exact wf_next st ih
  | finish e st _ ih => exact wf_finish e st ih

theorem stA_reachable : Reachable stA :=
  Reachable.add fiA initialState Reachable.init

theorem stZ_reachable : Reachable stZ :=
  Reachable.add fiZero initialState Reachable.init

/-! ### Claims C1, C2, C6, C7, C8, C9, C10 -/

/-- C1: `addFile(record)` returns `requiresDataUpload = false` and creates no
`FileRecord` when `record.size = 0` (the name is still tracked in the name
index); when `size > 0` and the (size, checksum) key is not yet registered it
creates the record and returns true iff `size > base_size`; when the key is
already registered it returns false unconditionally. -/
theorem addFile_requiresDataUpload_cases (fi : FileInfo) (st : LocalState) :
    (fi.size = 0 →
      (addFileInfo fi st).1 = false ∧
      (addFileInfo fi st).2.file_infos = st.file_infos ∧
      (mapFind fi.file_name (addFileInfo fi st).2.file_names).isSome = true) ∧
    (fi.size ≠ 0 → lookupInfo (fi.size, fi.checksum) st.file_infos = none →
      (addFileInfo fi st).2.file_infos = st.file_infos ++ [((fi.size, fi.checksum), fi)] ∧
      ((addFileInfo fi st).1 = true ↔ fi.base_size < fi.size)) ∧
    (fi.size ≠ 0 → ∀ r, lookupInfo (fi.size, fi.checksum) st.file_infos = some r →
      (addFileInfo fi st).1 = false) := by
  refine ⟨?_, ?_, ?_⟩
  · intro h0
    refine ⟨(addFileInfo_zero fi st h0).1, (addFileInfo_zero fi st h0).2, ?_⟩
    rw [addFileInfo_names]
    exact mapFind_mapInsert_isSome _ _ _
  · intro h0 hl
    refine ⟨(addFileInfo_lookup_none fi st h0 hl).2, ?_⟩
    rw [(addFileInfo_lookup_none fi st h0 hl).1]
    exact decide_eq_true_iff
  · intro h0 r hl
    exact (addFileInfo_lookup_some fi st r h0 hl).1

theorem addFile_requiresDataUpload_cases_witness :
    (addFileInfo fiZero initialState).1 = false ∧
    (addFileInfo fiA initialState).1 = true ∧
    (addFileInfo fiB stA).1 = false := by
  refine ⟨?_, ?_, ?_⟩
  · exact ((addFile_requiresDataUpload_cases fiZero initialState).1 rfl).1
  · exact ((addFile_requiresDataUpload_cases fiA initialState).2.1 (by decide)
      (by decide)).2.mpr (by decide)
  · exact (addFile_requiresDataUpload_cases fiB stA).2.2 (by decide) fiA (by decide)

/-- C2: over every reachable state (i.e. after every sequence of interface
calls) the content index has at most one record per (size, checksum) key; a
repeated `addFile` of an already-registered key returns false and leaves the
content index untouched; a successful `updateFile` never changes the key set
of the content index. -/
theorem content_index_unique_keys (st : LocalState) (h : Reachable st) :
    (st.file_infos.map Prod.fst).Nodup ∧
    (∀ fi r, lookupInfo (fi.size, fi.checksum) st.file_infos = some r →
      (addFileInfo fi st).1 = false ∧ (addFileInfo fi st).2.file_infos = st.file_infos) ∧
    (∀ fi st', updateFileInfo fi st = some st' →
      st'.file_infos.map Prod.fst = st.file_infos.map Prod.fst) := by
  have hwf := reachable_wf h
  refine ⟨hwf.keysNodup, ?_, ?_⟩
  · intro fi r hl
    have h0 : fi.size ≠ 0 := by
      have := hwf.noZero ((fi.size, fi.checksum), r) (lookupInfo_mem hl)
      simpa using this
    exact addFileInfo_lookup_some fi st r h0 hl
  · intro fi st' hu
    by_cases h0 : fi.size = 0
    · rw [updateFileInfo_zero fi st h0] at hu
      cases hu
      rfl
    · cases hl : lookupInfo (fi.size, fi.checksum) st.file_infos with
      | none => rw [updateFileInfo_absent fi st h0 hl] at hu; cases hu
      | some r =>
        rw [updateFileInfo_present fi st r h0 hl] at hu
        cases hu
        exact setSuffixInfo_keys _ _ _

theorem content_index_unique_keys_witness :
    (stA.file_infos.map Prod.fst).Nodup ∧
    (addFileInfo fiB stA).1 = false ∧
    (addFileInfo fiB stA).2.file_infos = stA.file_infos ∧
    (updateFileInfo fiU stA).map (fun s => s.file_infos.map Prod.fst) =
      some (stA.file_infos.map Prod.fst) := by
  have h := content_index_unique_keys stA stA_reachable
  refine ⟨h.1, (h.2.1 fiB fiA (by decide)).1, (h.2.1 fiB fiA (by decide)).2, ?_⟩
  cases hE : updateFileInfo fiU stA with
  | none => exact absurd hE (by decide)
  | some s =>
    simp only [Option.map_some']
    exact congrArg some (h.2.2 fiU s hE)

/-- C6: `updateFile` is a no-op (returning the unchanged state) when the
record's size is 0, and reports NotFound — the `none` of the embedding,
raised before any mutation, so the registry is unchanged — when a
nonzero-size key was never registered. -/
theorem updateFile_zero_and_notfound (fi : FileInfo) (st : LocalState) :
    (fi.size = 0 → updateFileInfo fi st = some st) ∧
    (fi.size ≠ 0 → lookupInfo (fi.size, fi.checksum) st.file_infos = none →
      updateFileInfo fi st = none) := by
  refine ⟨fun h0 => updateFileInfo_zero fi st h0, fun h0 hl => updateFileInfo_absent fi st h0 hl⟩

theorem updateFile_zero_and_notfound_witness :
    updateFileInfo fiZero stA = some stA ∧
    updateFileInfo fiU initialState = none := by
  refine ⟨(updateFile_zero_and_notfound fiZero stA).1 rfl, ?_⟩
  exact (updateFile_zero_and_notfound fiU initialState).2 (by decide) (by decide)

/-- C7: for a registered nonzero-size key, `updateFile(key, suffix)` succeeds
and a subsequent `getFile(key)` returns the stored record with only its
`archive_suffix` field replaced by the new suffix — size, checksum and
base_size are exactly those of the record stored before the update. -/
theorem updateFile_getFile_roundtrip (fi : FileInfo) (st : LocalState) (old : FileInfo)
    (h0 : fi.size ≠ 0)
    (h : lookupInfo (fi.size, fi.checksum) st.file_infos = some old) :
    ∃ st', updateFileInfo fi st = some st' ∧
      getFileInfoByKey (fi.size, fi.checksum) st' =
        some { old with archive_suffix := fi.archive_suffix } := by
  refine ⟨_, updateFileInfo_present fi st old h0 h, ?_⟩
  show lookupInfo (fi.size, fi.checksum)
      (setSuffixInfo (fi.size, fi.checksum) fi.archive_suffix st.file_infos) = _
  rw [lookupInfo_setSuffix_self, h]
  rfl

theorem updateFile_getFile_roundtrip_witness :
    (updateFileInfo fiU stA).bind (fun s => getFileInfoByKey (4, 5) s) =
      some { fiA with archive_suffix := strName "001" } := by
  obtain ⟨st', h1, h2⟩ := updateFile_getFile_roundtrip fiU stA fiA (by decide) (by decide)
  rw [h1]
  exact h2

/-- C8: a "prepare" completion report with an empty error message triggers the
replicated-part tracker's finalization (`preparePartNames`); a report with a
nonempty error message returns immediately — the function is total, so the
caller is never left blocked — with the whole state, in particular the
tracker, unchanged. -/
theorem finishPreparing_trigger (e : Name) (st : LocalState) :
    (e = [] → finishPreparing e st =
      { st with prepare_part_names_calls := st.prepare_part_names_calls + 1 }) ∧
    (e ≠ [] → finishPreparing e st = st) := by
  constructor
  · intro he
    simp [finishPreparing, he]
  · intro he
    simp [finishPreparing, he]

theorem finishPreparing_trigger_witness :
    finishPreparing [] initialState =
      { initialState with prepare_part_names_calls := 1 } ∧
    finishPreparing (strName "host lost") initialState = initialState := by
  constructor
  · exact (finishPreparing_trigger [] initialState).1 rfl
  · exact (finishPreparing_trigger (strName "host lost") initialState).2 (by decide)

/-- C9: when `addFile` is called with a file name that is already registered,
the name index is left entirely unchanged (in particular the existing
name-to-key binding survives; the new record's size and checksum are ignored
there), while the returned flag is still computed from the new record's key,
and for nonzero size the content index still receives the `try_emplace` of the
new record. -/
theorem addFile_existing_name_frame (fi : FileInfo) (st : LocalState)
    (sc0 : SizeAndChecksum) (h : Reachable st)
    (hn : mapFind fi.file_name st.file_names = some sc0) :
    (addFileInfo fi st).2.file_names = st.file_names ∧
    mapFind fi.file_name (addFileInfo fi st).2.file_names = some sc0 ∧
    ((addFileInfo fi st).1 = true ↔
      (fi.size ≠ 0 ∧ lookupInfo (fi.size, fi.checksum) st.file_infos = none ∧
        fi.base_size < fi.size)) ∧
    (fi.size ≠ 0 → (addFileInfo fi st).2.file_infos =
      (tryEmplaceInfo (fi.size, fi.checksum) fi st.file_infos).2) := by
  have hwf := reachable_wf h
  have hnames : (addFileInfo fi st).2.file_names = st.file_names := by
    rw [addFileInfo_names]
    exact mapInsert_of_mem_key _ sc0 hwf.sorted (mapFind_mem hn)
  refine ⟨hnames, by rw [hnames]; exact hn, ?_, ?_⟩
  · by_cases h0 : fi.size = 0
    · rw [(addFileInfo_zero fi st h0).1]
      simp [h0]
    · cases hl : lookupInfo (fi.size, fi.checksum) st.file_infos with
      | none =>
        rw [(addFileInfo_lookup_none fi st h0 hl).1]
        simp [h0, decide_eq_true_iff]
      | some r =>
        rw [(addFileInfo_lookup_some fi st r h0 hl).1]
        simp [h0, hl]
  · intro h0
    simp [addFileInfo, h0]

theorem addFile_existing_name_frame_witness :
    (addFileInfo fiA2 stA).2.file_names = stA.file_names ∧
    mapFind (strName "data/a.bin") (addFileInfo fiA2 stA).2.file_names = some (4, 5) ∧
    (addFileInfo fiA2 stA).1 = true := by
  have h := addFile_existing_name_frame fiA2 stA (4, 5) stA_reachable (by decide)
  exact ⟨h.1, h.2.1, h.2.2.1.mpr ⟨by decide, by decide, by decide⟩⟩

/-- C10: for a name registered with size 0, `getFile` by the (0, checksum)
key returns the empty result (zero-size content never enters the content
index), and `getFile` by name returns a record carrying the queried name,
size 0, and default (zero/empty) checksum, base_size and archive_suffix. -/
theorem zero_size_lookup (st : LocalState) (nm : Name) (ck : Nat)
    (h : Reachable st) (hn : mapFind nm st.file_names = some (0, ck)) :
    getFileInfoByKey (0, ck) st = none ∧
    getFileInfoByName nm st = some (some { FileInfo.default with file_name := nm }) := by
  constructor
  · show lookupInfo (0, ck) st.file_infos = none
    cases hl : lookupInfo (0, ck) st.file_infos with
    | none => rfl
    | some r =>
      have := (reachable_wf h).noZero ((0, ck), r) (lookupInfo_mem hl)
      simp at this
  · rw [getFileInfoByName, hn]
    rfl

theorem zero_size_lookup_witness :
    getFileInfoByKey (0, 7) stZ = none ∧
    getFileInfoByName (strName "meta/empty.txt") stZ =
      some (some { FileInfo.default with file_name := strName "meta/empty.txt" }) :=
  zero_size_lookup stZ (strName "meta/empty.txt") 7 stZ_reachable (by decide)

/-! ### The archive-suffix allocator (C5) -/

theorem parse_map_shift (l : List Nat) (a : Nat) :
    (l.map (fun d => 48 + d)).foldl (fun acc c => acc * 10 + (c - 48)) a =
      l.foldl (fun acc d => acc * 10 + d) a := by
  induction l generalizing a with
  | nil => rfl
  | cons d t ih =>
    simp only [List.map_cons, List.foldl_cons]
    rw [ih]
    congr 1
    omega

theorem foldl_replicate_zero (k : Nat) :
    (List.replicate k 0).foldl (fun acc d => acc * 10 + d) 0 = 0 := by
  induction k with
  | zero => rfl
  | succ k ih => simpa [List.replicate_succ] using ih

theorem foldl_reverse_ofDigits (l : List Nat) :
    l.reverse.foldl (fun acc d => acc * 10 + d) 0 = Nat.ofDigits 10 l := by
  induction l with
  | nil => rfl
  | cons d t ih =>
    rw [List.reverse_cons, List.foldl_append]
    simp only [List.foldl_cons, List.foldl_nil]
    rw [ih, Nat.ofDigits_cons]
    ring

theorem parseSuffix_formatSuffix (n : Nat) : parseSuffix (formatSuffix n) = n := by
  unfold parseSuffix formatSuffix padZeros
  rw [parse_map_shift, List.foldl_append, foldl_replicate_zero]
  unfold decimalDigits
  by_cases h : n = 0
  · simp [h]
  · rw [if_neg h, foldl_reverse_ofDigits, Nat.ofDigits_digits]

theorem formatSuffix_length (n : Nat) :
    (formatSuffix n).length = max 3 (decimalDigits n).length := by
  simp only [formatSuffix, padZeros, List.length_map, List.length_append,
    List.length_replicate]
  omega

theorem decimalDigits_length_le (n : Nat) (h : n ≤ 999) :
    (decimalDigits n).length ≤ 3 := by
  unfold decimalDigits
  by_cases h0 : n = 0
  · simp [h0]
  · rw [if_neg h0, List.length_reverse]
    by_contra hc
    push_neg at hc
    have h1 : (10 : Nat) ^ (Nat.digits 10 n).length ≤ 10 * n :=
      Nat.base_pow_length_digits_le 10 n (by norm_num) h0
    have h2 : (10 : Nat) ^ 4 ≤ 10 ^ (Nat.digits 10 n).length :=
      Nat.pow_le_pow_right (by norm_num) hc
    norm_num at h2
    omega

theorem decimalDigits_length_gt (n : Nat) (h : 999 < n) :
    3 < (decimalDigits n).length := by
  unfold decimalDigits
  rw [if_neg (by omega), List.length_reverse]
  by_contra hc
  push_neg at hc
  have h1 : n < 10 ^ (Nat.digits 10 n).length :=
    Nat.lt_base_pow_length_digits (by norm_num)
  have h2 : (10 : Nat) ^ (Nat.digits 10 n).length ≤ 10 ^ 3 :=
    Nat.pow_le_pow_right (by norm_num) hc
  norm_num at h2
  omega

theorem iterSuffix_spec (n : Nat) (st : LocalState) :
    (iterSuffix n st).current_archive_suffix = st.current_archive_suffix + n ∧
    (iterSuffix n st).archive_suffixes =
      st.archive_suffixes ++
        (List.range n).map (fun i => formatSuffix (st.current_archive_suffix + 1 + i)) := by
  induction n with
  | zero => simp [iterSuffix]
  | succ n ih =>
    obtain ⟨h1, h2⟩ := ih
    constructor
    · show (getNextArchiveSuffix (iterSuffix n st)).2.current_archive_suffix = _
      simp only [getNextArchiveSuffix]
      omega
    · show (getNextArchiveSuffix (iterSuffix n st)).2.archive_suffixes = _
      simp only [getNextArchiveSuffix]
      rw [h2, h1, List.range_succ, List.map_append, ← List.append_assoc]
      simp only [List.map_cons, List.map_nil]
      congr 3
      omega

/-- C5: `getNextArchiveSuffix` called N times yields exactly the sequence
"001", "002", … — N pairwise distinct suffixes whose numeric values strictly
increase, zero-padded to 3 characters up to 999 and widening (not wrapping)
beyond — and `getAllArchiveSuffixes` returns exactly that issuance history in
order. -/
theorem archive_suffix_allocator_spec (n : Nat) :
    getAllArchiveSuffixes (iterSuffix n initialState) =
      (List.range n).map (fun i => formatSuffix (i + 1)) ∧
    (getAllArchiveSuffixes (iterSuffix n initialState)).length = n ∧
    (getAllArchiveSuffixes (iterSuffix n initialState)).Nodup ∧
    List.Chain' (fun a b => parseSuffix a < parseSuffix b)
      (getAllArchiveSuffixes (iterSuffix n initialState)) ∧
    (∀ s ∈ getAllArchiveSuffixes (iterSuffix n initialState),
      parseSuffix s ≤ 999 → s.length = 3) ∧
    (∀ s ∈ getAllArchiveSuffixes (iterSuffix n initialState),
      999 < parseSuffix s → 3 < s.length) := by
  have hmain : getAllArchiveSuffixes (iterSuffix n initialState) =
      (List.range n).map (fun i => formatSuffix (i + 1)) := by
    show (iterSuffix n initialState).archive_suffixes = _
    rw [(iterSuffix_spec n initialState).2]
    show [] ++ _ = _
    rw [List.nil_append]
    apply List.map_congr_left
    intro a _
    congr 1
    show 0 + 1 + a = a + 1
    omega
  refine ⟨hmain, ?_, ?_, ?_, ?_, ?_⟩
  · rw [hmain, List.length_map, List.length_range]
  · rw [hmain]
    refine List.Nodup.map ?_ (List.nodup_range n)
    intro a b hab
    have := congrArg parseSuffix hab
    rw [parseSuffix_formatSuffix, parseSuffix_formatSuffix] at this
    omega
  · rw [hmain, List.chain'_map]
    refine ((List.pairwise_lt_range n).chain').imp ?_
    intro a b hab
    rw [parseSuffix_formatSuffix, parseSuffix_formatSuffix]
    omega
  · rw [hmain]
    intro s hs hsmall
    rcases List.mem_map.mp hs with ⟨i, _, hi⟩
    rw [← hi, parseSuffix_formatSuffix] at hsmall
    rw [← hi, formatSuffix_length]
    have := decimalDigits_length_le (i + 1) hsmall
    omega
  · rw [hmain]
    intro s hs hbig
    rcases List.mem_map.mp hs with ⟨i, _, hi⟩
    rw [← hi, parseSuffix_formatSuffix] at hbig
    rw [← hi, formatSuffix_length]
    have := decimalDigits_length_gt (i + 1) hbig
    omega

/-! ### The full dump getAllFileInfos (C3) -/

theorem stAB_reachable : Reachable stAB :=
  Reachable.add fiB stA stA_reachable

theorem collectInfos_forall2 (infos : List (SizeAndChecksum × FileInfo))
    (l : List (Name × SizeAndChecksum))
    (hcov : ∀ e ∈ l, e.2.1 ≠ 0 → (lookupInfo e.2 infos).isSome = true) :
    ∃ r, collectInfos infos l = some r ∧
      List.Forall₂ (fun (e : Name × SizeAndChecksum) (fi : FileInfo) =>
        fi.file_name = e.1 ∧
        ((e.2.1 = 0 ∧ fi = { FileInfo.default with file_name := e.1 }) ∨
         (e.2.1 ≠ 0 ∧ ∃ s, lookupInfo e.2 infos = some s ∧
            fi = { s with file_name := e.1 }))) l r := by
  induction l with
  | nil => exact ⟨[], rfl, List.Forall₂.nil⟩
  | cons e rest ih =>
    obtain ⟨r, hr, hf⟩ := ih (fun x hx hz => hcov x (List.mem_cons_of_mem e hx) hz)
    by_cases h0 : e.2.1 = 0
    · refine ⟨{ FileInfo.default with file_name := e.1 } :: r, ?_, ?_⟩
      · simp [collectInfos, fileInfoForEntry, h0, hr]
      · exact List.Forall₂.cons ⟨rfl, Or.inl ⟨h0, rfl⟩⟩ hf
    · have hsome := hcov e (List.mem_cons_self e rest) h0
      obtain ⟨s, hs⟩ := Option.isSome_iff_exists.mp hsome
      refine ⟨{ s with file_name := e.1 } :: r, ?_, ?_⟩
      · simp [collectInfos, fileInfoForEntry, h0, hs, hr]
      · exact List.Forall₂.cons ⟨rfl, Or.inr ⟨h0, s, hs, rfl⟩⟩ hf

theorem countP_eq_of_forall2 {α β : Type} (p : α → Bool) (q : β → Bool)
    {l : List α} {r : List β}
    (h : List.Forall₂ (fun a b => p a = q b) l r) : l.countP p = r.countP q := by
  induction h with
  | nil => rfl
  | cons hab _ ih => rw [List.countP_cons, List.countP_cons, hab, ih]

theorem forall2_mem_left {α β : Type} {R : α → β → Prop} {l : List α} {r : List β}
    (h : List.Forall₂ R l r) {a : α} (ha : a ∈ l) : ∃ b ∈ r, R a b := by
  induction h with
  | nil => simp at ha
  | cons hab ht ih =>
    rcases List.mem_cons.mp ha with ha | ha
    · subst ha
      exact ⟨_, List.mem_cons_self _ _, hab⟩
    · obtain ⟨b, hb, hRb⟩ := ih ha
      exact ⟨b, List.mem_cons_of_mem _ hb, hRb⟩

theorem forall2_map_eq {α β γ : Type} (f : α → γ) (g : β → γ) {l : List α}
    {r : List β} (h : List.Forall₂ (fun a b => g b = f a) l r) : r.map g = l.map f := by
  induction h with
  | nil => rfl
  | cons hab _ ih => rw [List.map_cons, List.map_cons, hab, ih]

theorem countP_name_sorted {m : List (Name × SizeAndChecksum)} {nm : Name}
    {sc : SizeAndChecksum} (hs : SortedNames m) (h : (nm, sc) ∈ m) :
    m.countP (fun e => e.1 == nm) = 1 := by
  induction m with
  | nil => simp at h
  | cons e rest ih =>
    obtain ⟨hhead, htail⟩ := List.pairwise_cons.mp hs
    rcases List.mem_cons.mp h with he | he
    · have hz : rest.countP (fun e => e.1 == nm) = 0 := by
        rw [List.countP_eq_zero]
        intro a ha
        have hlt := hhead a ha
        rw [← he] at hlt
        simp only [beq_iff_eq]
        intro hc
        rw [hc] at hlt
        rw [ltName_irrefl] at hlt
        cases hlt
      rw [List.countP_cons, hz, ← he]
      simp
    · have hne : e.1 ≠ nm := by
        have hlt := hhead (nm, sc) he
        intro hc
        rw [hc, ltName_irrefl] at hlt
        cases hlt
      rw [List.countP_cons, ih htail he]
      simp [hne]

/-- C3 counterexample: in the state where the two names "data/a.bin" and
"data/b.bin" share the single content key (4, 5), `getAllFileInfos` lists that
content record twice — once per logical name — not exactly once. -/
theorem getAllFileInfos_shared_key_counterexample :
    (getAllFileInfos stAB).map
      (fun l => l.countP (fun fi => fi.size == 4 && fi.checksum == 5)) = some 2 ∧
    (getAllFileInfos stAB).map
      (fun l => l.countP (fun fi => fi.size == 4 && fi.checksum == 5)) ≠ some 1 := by
  decide

/-- C3 (amended): `getAllFileInfos` returns one entry per registered logical
name, in strictly increasing lexicographic order of the names (the entry
names are exactly the name-index key sequence): each registered name is
carried by exactly one entry, which holds the content record stored for that
name's key with its `file_name` field set to the name (the default record
when the size is 0); consequently a content record shared by k logical names
appears k times, once per name, rather than once in total. -/
theorem getAllFileInfos_entries (st : LocalState) (h : Reachable st) :
    ∃ l, getAllFileInfos st = some l ∧
      l.length = st.file_names.length ∧
      l.map (fun fi => fi.file_name) = st.file_names.map Prod.fst ∧
      (l.map (fun fi => fi.file_name)).Pairwise (fun a b => ltName a b = true) ∧
      ∀ nm sc, (nm, sc) ∈ st.file_names →
        l.countP (fun fi => fi.file_name == nm) = 1 ∧
        ∃ fi ∈ l, fi.file_name = nm ∧
          ((sc.1 = 0 ∧ fi = { FileInfo.default with file_name := nm }) ∨
           (sc.1 ≠ 0 ∧ ∃ s, lookupInfo sc st.file_infos = some s ∧
              fi = { s with file_name := nm })) := by
  have hwf := reachable_wf h
  obtain ⟨r, hr, hf⟩ := collectInfos_forall2 st.file_infos st.file_names hwf.coverage
  have hnames : r.map (fun fi => fi.file_name) = st.file_names.map Prod.fst :=
    forall2_map_eq Prod.fst (fun fi => fi.file_name) (hf.imp (fun a b hab => hab.1))
  have hsortnames : (r.map (fun fi => fi.file_name)).Pairwise
      (fun a b => ltName a b = true) := by
    rw [hnames]
    exact List.pairwise_map.mpr hwf.sorted
  refine ⟨r, hr, (List.Forall₂.length_eq hf).symm, hnames, hsortnames, ?_⟩
  intro nm sc hmem
  constructor
  · have hcnt : st.file_names.countP (fun e => e.1 == nm) = 1 :=
      countP_name_sorted hwf.sorted hmem
    have heq := countP_eq_of_forall2 (fun e => e.1 == nm)
      (fun fi => fi.file_name == nm)
      (hf.imp (fun a b hab => by
        show (a.1 == nm) = (b.file_name == nm)
        rw [hab.1]))
    rw [← heq, hcnt]
  · obtain ⟨fi, hfi, hname, hdis⟩ := forall2_mem_left hf hmem
    exact ⟨fi, hfi, by rw [hname], hdis⟩

theorem getAllFileInfos_entries_witness :
    (getAllFileInfos stAB).map
      (fun l => l.countP (fun fi => fi.file_name == strName "data/b.bin")) = some 1 ∧
    (getAllFileInfos stAB).map (fun l => l.map (fun fi => fi.file_name)) =
      some [strName "data/a.bin", strName "data/b.bin"] := by
  obtain ⟨l, hl, _, hnames, _, hper⟩ := getAllFileInfos_entries stAB stAB_reachable
  constructor
  · rw [hl]
    simp only [Option.map_some']
    exact congrArg some ((hper (strName "data/b.bin") (4, 5) (by decide)).1)
  · rw [hl]
    simp only [Option.map_some']
    rw [hnames]
    decide

/-! ### Directory-style listing (C4) -/

theorem dedupConsecGo_cons (last : Option Name) (x : Name) (xs : List Name) :
    dedupConsecGo last (x :: xs) =
      if last = some x then dedupConsecGo last xs
      else x :: dedupConsecGo (some x) xs := rfl

theorem listFilesGo_eq (pre term : Name) (l : List (Name × SizeAndChecksum)) :
    ∀ acc : List Name,
      listFilesGo pre term l acc =
        acc ++ dedupConsecGo acc.getLast?
          ((l.takeWhile (fun e => startsWith pre e.1)).map
            (fun e => segmentOf pre term e.1)) := by
  induction l with
  | nil => intro acc; simp [listFilesGo, dedupConsecGo]
  | cons e rest ih =>
    intro acc
    obtain ⟨nm, k⟩ := e
    simp only [listFilesGo]
    by_cases hsw : startsWith pre nm = true
    · rw [if_pos hsw]
      have htw : ((nm, k) :: rest).takeWhile (fun e => startsWith pre e.1) =
          (nm, k) :: rest.takeWhile (fun e => startsWith pre e.1) := by
        simp [List.takeWhile_cons, hsw]
      rw [htw]
      simp only [List.map_cons, dedupConsecGo_cons]
      by_cases hl : acc.getLast? = some (segmentOf pre term nm)
      · rw [if_pos hl, if_pos hl, ih acc]
      · rw [if_neg hl, if_neg hl, ih (acc ++ [segmentOf pre term nm]),
          List.getLast?_concat]
        simp [List.append_assoc]
    · rw [if_neg hsw]
      have htw : ((nm, k) :: rest).takeWhile (fun e => startsWith pre e.1) = [] := by
        simp [List.takeWhile_cons, hsw]
      rw [htw]
      simp [dedupConsecGo]

theorem dropWhile_lt_not (pre : Name) (l : List (Name × SizeAndChecksum))
    (hs : SortedNames l) :
    ∀ e ∈ l.dropWhile (fun e => ltName e.1 pre), ltName e.1 pre = false := by
  induction l with
  | nil => simp
  | cons a rest ih =>
    obtain ⟨hhead, htail⟩ := List.pairwise_cons.mp hs
    by_cases hp : ltName a.1 pre = true
    · rw [List.dropWhile_cons, if_pos hp]
      exact ih htail
    · rw [List.dropWhile_cons, if_neg hp]
      intro e he
      rcases List.mem_cons.mp he with he | he
      · rw [he]
        cases hb : ltName a.1 pre
        · rfl
        · exact absurd hb hp
      · cases hb : ltName e.1 pre
        · rfl
        · exfalso
          have := ltName_trans _ _ _ (hhead e he) hb
          exact hp this

theorem takeWhile_eq_filter_region (pre : Name) (l : List (Name × SizeAndChecksum))
    (hs : SortedNames l) (hge : ∀ e ∈ l, ltName e.1 pre = false) :
    l.takeWhile (fun e => startsWith pre e.1) =
      l.filter (fun e => startsWith pre e.1) := by
  induction l with
  | nil => rfl
  | cons a rest ih
  =>
    obtain ⟨hhead, htail⟩ := List.pairwise_cons.mp hs
    by_cases hsw : startsWith pre a.1 = true
    · rw [List.takeWhile_cons, if_pos hsw, List.filter_cons, if_pos hsw]
      rw [ih htail (fun e he => hge e (List.mem_cons_of_mem a he))]
    · have hswf : startsWith pre a.1 = false := by
        cases hb : startsWith pre a.1
        · rfl
        · exact absurd hb hsw
      rw [List.takeWhile_cons, if_neg hsw, List.filter_cons, if_neg hsw]
      have hnil : rest.filter (fun e => startsWith pre e.1) = [] := by
        rw [List.filter_eq_nil_iff]
        intro e he hc
        have h1 := ltName_of_startsWith_gap pre a.1 e.1
          (hge a (List.mem_cons_self a rest)) hswf hc
        have h2 := ltName_trans _ _ _ (hhead e he) h1
        rw [ltName_irrefl] at h2
        cases h2
      rw [hnil]

theorem filter_sw_dropWhile (pre : Name) (l : List (Name × SizeAndChecksum)) :
    l.filter (fun e => startsWith pre e.1) =
      (l.dropWhile (fun e => ltName e.1 pre)).filter (fun e => startsWith pre e.1) := by
  conv_lhs =>
    rw [← List.takeWhile_append_dropWhile (fun e => ltName e.1 pre) l]
  rw [List.filter_append]
  have hnil : (l.takeWhile (fun e => ltName e.1 pre)).filter
      (fun e => startsWith pre e.1) = [] := by
    rw [List.filter_eq_nil_iff]
    intro e he hc
    have hlt := List.mem_takeWhile_imp he
    have hfalse := ltName_false_of_startsWith pre e.1 hc
    simp only at hlt
    rw [hfalse] at hlt
    cases hlt
  rw [hnil, List.nil_append]

/-- C4: over any sorted registry, `listFiles(prefix, terminator)` equals the
specification: scan all registered names starting with the prefix in
lexicographic order, take from each the substring between the prefix and the
first occurrence of the terminator after it (to end of name when the
terminator is empty or absent), and collapse consecutive duplicates; in
particular over the registered names "a/b/c", "a/b/d", "a/e" the call
`listFiles("a/", "/")` returns exactly ["b", "e"]. -/
theorem listFiles_eq_spec (st : LocalState) (pre term : Name)
    (hs : SortedNames st.file_names) :
    listFiles st pre term = listFilesSpec st pre term ∧
    listFiles stList (strName "a/") (strName "/") = [strName "b", strName "e"] := by
  constructor
  · rw [listFiles, listFilesGo_eq]
    show [] ++ dedupConsecGo none _ = _
    rw [List.nil_append, listFilesSpec]
    congr 1
    have hsregion : SortedNames
        (st.file_names.dropWhile (fun e => ltName e.1 pre)) :=
      List.Pairwise.sublist (List.dropWhile_sublist _) hs
    rw [takeWhile_eq_filter_region pre _ hsregion (dropWhile_lt_not pre _ hs)]
    rw [← filter_sw_dropWhile]
  · decide

theorem listFiles_eq_spec_witness :
    (SortedNames stList.file_names ∧
      listFiles stList (strName "a/") (strName "/") =
        listFilesSpec stList (strName "a/") (strName "/")) ∧
    listFiles stList (strName "a/") (strName "/") = [strName "b", strName "e"] := by
  have h := listFiles_eq_spec stList (strName "a/") (strName "/") (by decide)
  exact ⟨⟨by decide, h.1⟩, h.2⟩

theorem archive_suffix_allocator_spec_witness :
    getAllArchiveSuffixes (iterSuffix 2 initialState) = [strName "001", strName "002"] := by
  rw [(archive_suffix_allocator_spec 2).1]
  have h1 : Nat.digits 10 1 = [1] := by simp
  have h2 : Nat.digits 10 2 = [2] := by simp
  rw [show List.range 2 = [0, 1] from rfl]
  simp only [List.map_cons, List.map_nil]
  rw [show (0 : Nat) + 1 = 1 from rfl, show (1 : Nat) + 1 = 2 from rfl]
  rw [formatSuffix, formatSuffix, decimalDigits, decimalDigits,
    if_neg (by omega), if_neg (by omega), h1, h2]
  decide

end BackupLocal
